import Mathlib

/-!
# Bloc Sales CRM — Atomic Fair Assignment Engine: a shallow embedding

This file embeds the assignment engine of the Bloc Sales CRM repository and
proves (or refutes) the frozen specification claims about it.

Two implementations of the engine live in the repository and both are
embedded here:

* the application-level selector `smartAssignLead` in
  `src/lib/assign-lead.ts` (TypeScript, Supabase client calls);
* the transactional SQL procedure `assign_lead_atomic` in the migration
  `20260227_atomic_assignment.sql` (plpgsql, one database transaction).

Strings are modelled as lists of Unicode code points (`List Nat`), with
`trim` / `toLowerCase` mirroring the JavaScript (and SQL `lower`) behaviour
on the ASCII range actually exercised by the code. Dates (ISO `YYYY-MM-DD`
strings, compared lexicographically in the code) and timestamps
(`getTime()` values) are modelled as `Nat`, which is order-isomorphic to
the code's comparisons.
-/

namespace BlocCRM

/-! ## Strings: code-point lists with JS-style `trim` and `toLowerCase` -/

/-- A string, as a list of Unicode code points. -/
abbrev Str := List Nat

/-- Code points treated as whitespace by `String.prototype.trim` (restricted
to the ASCII whitespace actually relevant here: space, tab, LF, CR). -/
def isSpace (n : Nat) : Bool :=
  n == 32 || n == 9 || n == 10 || n == 13

/-- ASCII lowercasing of one code point, as done by `toLowerCase` (and SQL
`lower`) on the ASCII range. -/
def lowerChar (n : Nat) : Nat :=
  if 65 ≤ n ∧ n ≤ 90 then n + 32 else n

/-- `s.toLowerCase()`. -/
def lowerStr (s : Str) : Str := s.map lowerChar

/-- Left trim: drop leading whitespace. -/
def trimL (s : Str) : Str := s.dropWhile isSpace

/-- `s.trim()`: drop leading and trailing whitespace. -/
def trim (s : Str) : Str :=
  ((trimL s).reverse.dropWhile isSpace).reverse

/-- `s.trim().toLowerCase()` — the normalisation applied by
`smartAssignLead` to both the lead's state and each caller's state tag
(src/lib/assign-lead.ts lines 91, 95). -/
def norm (s : Str) : Str := lowerStr (trim s)

/-- Converts a Lean string literal to its code-point list (used only to
write concrete scenario data readably). -/
def ofString (s : String) : Str := s.toList.map Char.toNat

/-! ## Data model

`Caller` mirrors the `callers` row (supabase_schema.sql / types.ts);
fields not read by the assignment algorithm (`name`, `role`, `languages`,
`created_at`) are omitted — the registry list is taken to be in the
`ORDER BY created_at ASC` fetch order of `smartAssignLead` step 1. -/

structure Caller where
  id : Nat
  daily_lead_limit : Nat
  assigned_states : List Str
  leads_assigned_today : Nat
  /-- ISO date, order-isomorphically a `Nat`. -/
  last_reset_date : Nat
  /-- ISO timestamp (`getTime()` value), `none` = never assigned. -/
  last_assigned_at : Option Nat
  deriving Repr, DecidableEq

/-! ## Leftmost-minimum selection

Both implementations sort a candidate list by a comparator and take the
first element: `[...pool].sort(cmp)[0]` in TypeScript (Array.prototype.sort
is stable, so the head is the leftmost element minimal under the
comparator's preorder), `ORDER BY ... LIMIT 1` in SQL (Postgres picks an
arbitrary minimal row on ties; this embedding resolves the tie to the
leftmost one — every theorem below that touches a tie either has a unique
minimum or asserts only minimality, which holds for any tie choice). -/

/-- Leftmost element minimal under the strict comparison `lt`. -/
def selectMin (lt : Caller → Caller → Bool) (cs : List Caller) : Option Caller :=
  cs.foldl
    (fun acc x =>
      match acc with
      | none => some x
      | some b => if lt x b then some x else some b)
    none

/-- The round-robin comparator of `smartAssignLead` steps 6–7 (and the SQL
`ORDER BY last_assigned_at ASC NULLS FIRST`): `a` strictly precedes `b`
iff `a` is never-assigned and `b` is not, or both have timestamps and
`a`'s is strictly older. Mirrors the JS comparator returning a negative
number. -/
def rrLt (a b : Caller) : Bool :=
  match a.last_assigned_at, b.last_assigned_at with
  | none, none => false
  | none, some _ => true
  | some _, none => false
  | some x, some y => x < y

/-- The overflow comparator of `smartAssignLead` step 8:
`(a, b) => a.leads_assigned_today - b.leads_assigned_today`. -/
def countLt (a b : Caller) : Bool :=
  a.leads_assigned_today < b.leads_assigned_today

/-- The overflow ordering of `assign_lead_atomic` layer 3:
`ORDER BY leads_assigned_today ASC, last_assigned_at ASC NULLS FIRST`. -/
def lexLt (a b : Caller) : Bool :=
  a.leads_assigned_today < b.leads_assigned_today ||
    (a.leads_assigned_today == b.leads_assigned_today &&
      rrLt a b)

/-! ## `smartAssignLead` — pure selection (src/lib/assign-lead.ts 85–146) -/

/-- One caller's state-tag test (lines 93–97): some tag satisfies
`s.trim().toLowerCase() === lead.state.trim().toLowerCase()`. -/
def matchesState (key : Str) (c : Caller) : Bool :=
  c.assigned_states.any (fun s => norm s == norm key)

/-- Steps 3–4: the state-preferred pool, falling back to all callers when
the state filter is empty or the lead has no usable state. The guard
`lead.state && lead.state.trim() !== ''` is `trim key ≠ []`. -/
def candidatePool (state : Option Str) (callers : List Caller) : List Caller :=
  let pool : List Caller :=
    match state with
    | some key => if trim key ≠ [] then callers.filter (matchesState key) else []
    | none => []
  if pool.isEmpty then callers else pool

/-- Step 5: the daily-cap filter. -/
def eligibleOf (pool : List Caller) : List Caller :=
  pool.filter (fun c => c.leads_assigned_today < c.daily_lead_limit)

/-- Which branch of steps 6–8 produced the choice. -/
inductive Branch where
  | roundRobin
  | overflow
  deriving Repr, DecidableEq

/-- Steps 3–8 of `smartAssignLead`: pool construction, cap filter, then
round-robin pick (eligible branch) or least-loaded overflow pick. -/
def chooseCaller (state : Option Str) (callers : List Caller) :
    Option (Caller × Branch) :=
  let pool := candidatePool state callers
  let eligible := eligibleOf pool
  if eligible.isEmpty then
    (selectMin countLt pool).map (fun c => (c, Branch.overflow))
  else
    (selectMin rrLt eligible).map (fun c => (c, Branch.roundRobin))

/-! ## `smartAssignLead` — quota reset (step 2, lines 61–81)

The TypeScript collects the ids of stale callers
(`last_reset_date < today`, a lexicographic comparison of ISO date
strings) and then zeroes every caller whose id is in that list, both in
the database and in the local array. -/

/-- Step 2 of `smartAssignLead`. -/
def applyReset (callers : List Caller) (today : Nat) : List Caller :=
  let staleIds := (callers.filter (fun c => c.last_reset_date < today)).map Caller.id
  callers.map (fun c =>
    if staleIds.contains c.id then
      { c with leads_assigned_today := 0, last_reset_date := today }
    else c)

/-! ## `smartAssignLead` — the full call with its two unguarded updates

Steps 9–10 (lines 150–182) are two *separate* Supabase updates with no
enclosing transaction: first the chosen caller row, then the lead row.
`TsFailure` injects a failure into either update; a failed update leaves
every previously executed update in place (there is no rollback in the
TypeScript path). -/

/-- The externally visible state the TypeScript path mutates. -/
structure TsState where
  callers : List Caller
  lead_assigned_caller_id : Option Nat
  lead_assigned_at : Option Nat
  deriving Repr, DecidableEq

/-- Failure injection for the two update steps of `smartAssignLead`. -/
inductive TsFailure where
  | noFailure
  | callerUpdateFails
  | leadUpdateFails
  deriving Repr, DecidableEq

/-- Outcome of one `smartAssignLead` call. -/
inductive TsResult where
  /-- `'No callers found in the system.'` (lines 56–59). -/
  | noCallers
  /-- `'Could not determine a caller for assignment.'` (lines 144–146). -/
  | noChoice
  /-- `'Failed to update caller: …'` (lines 161–166). -/
  | callerUpdateError
  /-- `'Failed to update lead: …'` (lines 177–182). -/
  | leadUpdateError
  /-- Success, returning the chosen caller's id. -/
  | ok (callerId : Nat)
  deriving Repr, DecidableEq

/-- Step 9's caller update: fixed values computed from the chosen caller
(`leads_assigned_today: chosen.leads_assigned_today + 1`,
`last_assigned_at: assignedAt`, `last_reset_date: today`), applied to the
row whose id matches. -/
def updateChosen (callers : List Caller) (chosen : Caller) (now today : Nat) :
    List Caller :=
  callers.map (fun c =>
    if c.id == chosen.id then
      { c with
        leads_assigned_today := chosen.leads_assigned_today + 1,
        last_assigned_at := some now,
        last_reset_date := today }
    else c)

/-- The whole of `smartAssignLead` (lines 39–193): empty-registry check,
quota reset, selection, caller update, lead update — with `fail`
injecting a failure into one of the two update steps. -/
def smartAssignLead (st : TsState) (leadState : Option Str)
    (today now : Nat) (fail : TsFailure) : TsState × TsResult :=
  if st.callers.isEmpty then
    (st, TsResult.noCallers)
  else
    let callers := applyReset st.callers today
    let st₁ := { st with callers := callers }
    match chooseCaller leadState callers with
    | none => (st₁, TsResult.noChoice)
    | some (chosen, _) =>
      if fail = TsFailure.callerUpdateFails then
        (st₁, TsResult.callerUpdateError)
      else
        let st₂ := { st₁ with callers := updateChosen callers chosen now today }
        if fail = TsFailure.leadUpdateFails then
          (st₂, TsResult.leadUpdateError)
        else
          ({ st₂ with
              lead_assigned_caller_id := some chosen.id,
              lead_assigned_at := some now },
            TsResult.ok chosen.id)

/-! ## `assign_lead_atomic` — the transactional SQL procedure

Embeds `public.assign_lead_atomic(p_lead_id, p_state)` from the migration
`20260227_atomic_assignment.sql`. The plpgsql function runs as one
database transaction: if any statement fails, *all* of its effects roll
back, which the embedding renders by returning the original state. -/

/-- The `assignment_reason` values written by the SQL procedure. -/
inductive SqlReason where
  | state_match_round_robin
  | global_round_robin
  | cap_overflow_fallback
  deriving Repr, DecidableEq

/-- A `leads` row, restricted to the fields the procedure touches. -/
structure LeadRow where
  id : Nat
  assigned_caller_id : Option Nat
  assigned_at : Option Nat
  deriving Repr, DecidableEq

/-- An `assignment_logs` row. -/
structure LogRow where
  lead_id : Nat
  caller_id : Nat
  assignment_reason : SqlReason
  created_at : Nat
  deriving Repr, DecidableEq

/-- Database state seen by `assign_lead_atomic`. -/
structure SqlState where
  callers : List Caller
  leads : List LeadRow
  logs : List LogRow
  deriving Repr, DecidableEq

/-- Failure injection for the three write statements of part C. -/
inductive SqlFailure where
  | noFailure
  | callerUpdateFails
  | leadUpdateFails
  | logInsertFails
  deriving Repr, DecidableEq

/-- Result of one `assign_lead_atomic` call. -/
inductive SqlResult where
  /-- `jsonb_build_object('success', false, 'error', 'No callers available …')`. -/
  | noCallers
  /-- A write statement raised; the transaction aborted. -/
  | txAborted
  /-- `jsonb_build_object('success', true, 'caller_id', …, 'reason', …)`. -/
  | ok (callerId : Nat) (reason : SqlReason)
  deriving Repr, DecidableEq

/-- Part A: `UPDATE callers SET leads_assigned_today = 0,
last_reset_date = v_today WHERE last_reset_date < v_today` (set-based,
unlike the TypeScript id-roundtrip). -/
def sqlApplyReset (callers : List Caller) (today : Nat) : List Caller :=
  callers.map (fun c =>
    if c.last_reset_date < today then
      { c with leads_assigned_today := 0, last_reset_date := today }
    else c)

/-- Layer 1's match predicate: `EXISTS (SELECT 1 FROM
unnest(assigned_states) AS s WHERE lower(s) = lower(p_state))` — note:
`lower` only, no trim. -/
def sqlMatchesState (key : Str) (c : Caller) : Bool :=
  c.assigned_states.any (fun s => lowerStr s == lowerStr key)

/-- Layer 1's `WHERE` clause: the guard
`p_state IS NOT NULL AND p_state <> ''`, the tag match, and the capacity
filter. -/
def sqlLayer1Pool (pState : Option Str) (callers : List Caller) : List Caller :=
  callers.filter (fun c =>
    (match pState with
     | some key => key ≠ [] && sqlMatchesState key c
     | none => false) &&
    c.leads_assigned_today < c.daily_lead_limit)

/-- Layer 2's `WHERE` clause: any caller under its daily cap. -/
def sqlLayer2Pool (callers : List Caller) : List Caller :=
  callers.filter (fun c => c.leads_assigned_today < c.daily_lead_limit)

/-- Part B: the three `SELECT … ORDER BY … LIMIT 1 FOR UPDATE` layers,
evaluated in order; the first that finds a row wins. Layers 1 and 2
order by `last_assigned_at ASC NULLS FIRST`; layer 3 (the overflow) has
no `WHERE` clause at all — it scans the whole registry ordered by
`leads_assigned_today ASC, last_assigned_at ASC NULLS FIRST`. -/
def sqlSelect (pState : Option Str) (callers : List Caller) :
    Option (Caller × SqlReason) :=
  match selectMin rrLt (sqlLayer1Pool pState callers) with
  | some c => some (c, SqlReason.state_match_round_robin)
  | none =>
    match selectMin rrLt (sqlLayer2Pool callers) with
    | some c => some (c, SqlReason.global_round_robin)
    | none =>
      (selectMin lexLt callers).map (fun c => (c, SqlReason.cap_overflow_fallback))

/-- The whole of `assign_lead_atomic`: reset, tiered selection, then the
three writes of part C inside one transaction. An injected failure at a
reached write statement aborts the transaction, rolling back every
effect (the reset included). -/
def assignLeadAtomic (st : SqlState) (leadId : Nat) (pState : Option Str)
    (today now : Nat) (fail : SqlFailure) : SqlState × SqlResult :=
  let callers := sqlApplyReset st.callers today
  match sqlSelect pState callers with
  | none =>
    -- No caller chosen: the function returns success:false normally,
    -- so the transaction (including the reset) still commits.
    ({ st with callers := callers }, SqlResult.noCallers)
  | some (chosen, reason) =>
    if fail = SqlFailure.callerUpdateFails then
      (st, SqlResult.txAborted)
    else
      let callers₁ := callers.map (fun c =>
        if c.id == chosen.id then
          { c with
            leads_assigned_today := c.leads_assigned_today + 1,
            last_assigned_at := some now }
        else c)
      if fail = SqlFailure.leadUpdateFails then
        (st, SqlResult.txAborted)
      else
        let leads₁ := st.leads.map (fun l =>
          if l.id == leadId then
            { l with assigned_caller_id := some chosen.id, assigned_at := some now }
          else l)
        if fail = SqlFailure.logInsertFails then
          (st, SqlResult.txAborted)
        else
          ({ callers := callers₁,
             leads := leads₁,
             logs := st.logs ++ [⟨leadId, chosen.id, reason, now⟩] },
            SqlResult.ok chosen.id reason)

/-! ## Sequential assignment runs (for the fairness property)

One assignment call with no affinity key, restricted to the registry
state it reads and writes (the lead-row write does not feed back into
selection). Each call re-fetches the registry, as `smartAssignLead`
does. -/

/-- One no-affinity assignment call's effect on the registry, returning
the chosen caller's id. -/
def assignStep (callers : List Caller) (today now : Nat) :
    List Caller × Option Nat :=
  let callers := applyReset callers today
  match chooseCaller none callers with
  | none => (callers, none)
  | some (chosen, _) => (updateChosen callers chosen now today, some chosen.id)

/-- `n` sequential no-affinity assignment calls at strictly increasing
times `t, t+1, …`, returning the final registry and the chosen ids in
call order. -/
def runRR (today : Nat) : List Caller → Nat → Nat → List Caller × List Nat
  | cs, _, 0 => (cs, [])
  | cs, t, n+1 =>
    match assignStep cs today t with
    | (cs', none) => (cs', [])
    | (cs', some i) =>
      let r := runRR today cs' (t + 1) n
      (r.1, i :: r.2)

/-! ## The spec's concrete scenario (§8)

Workers A(cap 10, count 5, tag "Maharashtra", last assigned 10:00),
B(cap 60, count 0, never assigned, no tag), C(cap 60, count 2, last
assigned 12:00, no tag), D(cap 2, count 2, tag "Karnataka", last
assigned 08:00); ids 1–4 in registry (created_at) order; all counters
fresh for the scenario's `today`. Times of day are minutes since
midnight. -/

def scToday : Nat := 20260226

def workerA : Caller :=
  { id := 1, daily_lead_limit := 10,
    assigned_states := [ofString "Maharashtra"],
    leads_assigned_today := 5, last_reset_date := scToday,
    last_assigned_at := some 600 }

def workerB : Caller :=
  { id := 2, daily_lead_limit := 60, assigned_states := [],
    leads_assigned_today := 0, last_reset_date := scToday,
    last_assigned_at := none }

def workerC : Caller :=
  { id := 3, daily_lead_limit := 60, assigned_states := [],
    leads_assigned_today := 2, last_reset_date := scToday,
    last_assigned_at := some 720 }

def workerD : Caller :=
  { id := 4, daily_lead_limit := 2,
    assigned_states := [ofString "Karnataka"],
    leads_assigned_today := 2, last_reset_date := scToday,
    last_assigned_at := some 480 }

def scenarioRegistry : List Caller := [workerA, workerB, workerC, workerD]

/-! ## Helper lemmas on `selectMin` -/

theorem selectMin_foldl_isSome (lt : Caller → Caller → Bool) (cs : List Caller)
    (b : Caller) :
    (cs.foldl
      (fun acc x =>
        match acc with
        | none => some x
        | some m => if lt x m then some x else some m)
      (some b)).isSome := by
  induction cs generalizing b with
  | nil => rfl
  | cons x cs ih =>
    simp only [List.foldl_cons]
    split
    · exact ih x
    · exact ih b

theorem selectMin_eq_none (lt : Caller → Caller → Bool) (cs : List Caller) :
    selectMin lt cs = none ↔ cs = [] := by
  cases cs with
  | nil => simp [selectMin]
  | cons c cs =>
    simp only [selectMin, List.foldl_cons]
    constructor
    · intro h
      have := selectMin_foldl_isSome lt cs c
      rw [h] at this
      simp at this
    · intro h
      exact absurd h (by simp)

theorem selectMin_foldl_mem (lt : Caller → Caller → Bool) (cs : List Caller)
    (b m : Caller)
    (h : cs.foldl
      (fun acc x =>
        match acc with
        | none => some x
        | some m => if lt x m then some x else some m)
      (some b) = some m) :
    m = b ∨ m ∈ cs := by
  induction cs generalizing b with
  | nil => simp_all
  | cons x cs ih =>
    simp only [List.foldl_cons] at h
    split at h
    · rcases ih x h with h' | h' <;> simp [h']
    · rcases ih b h with h' | h' <;> simp [h']

theorem selectMin_mem (lt : Caller → Caller → Bool) (cs : List Caller)
    (m : Caller) (h : selectMin lt cs = some m) : m ∈ cs := by
  cases cs with
  | nil => simp [selectMin] at h
  | cons c cs =>
    simp only [selectMin, List.foldl_cons] at h
    rcases selectMin_foldl_mem lt cs c m h with h' | h' <;> simp [h']

theorem selectMin_foldl_min (lt : Caller → Caller → Bool)
    (htrans : ∀ a b c, lt a b = true → lt b c = true → lt a c = true)
    (hirr : ∀ a, lt a a = false)
    (cs : List Caller) (b m : Caller)
    (h : cs.foldl
      (fun acc x =>
        match acc with
        | none => some x
        | some m => if lt x m then some x else some m)
      (some b) = some m) :
    (m = b ∨ lt m b = true) ∧ ∀ x ∈ cs, lt x m = false := by
  induction cs generalizing b with
  | nil =>
    simp only [List.foldl_nil, Option.some.injEq] at h
    simp [h]
  | cons x cs ih =>
    simp only [List.foldl_cons] at h
    split at h
    case isTrue hxb =>
      obtain ⟨hrel, hmin⟩ := ih x h
      refine ⟨Or.inr ?_, ?_⟩
      · rcases hrel with rfl | hmx
        · exact hxb
        · exact htrans m x b hmx hxb
      · intro y hy
        rcases List.mem_cons.mp hy with heq | hy
        · -- y = x
          rw [heq]
          rcases hrel with hrel | hmx
          · rw [hrel]
            exact hirr x
          · by_contra hxm
            have := htrans x m x (by simpa using hxm) hmx
            rw [hirr x] at this
            exact absurd this (by simp)
        · exact hmin y hy
    case isFalse hxb =>
      obtain ⟨hrel, hmin⟩ := ih b h
      refine ⟨hrel, ?_⟩
      intro y hy
      rcases List.mem_cons.mp hy with heq | hy
      · -- y = x
        rw [heq]
        rcases hrel with hrel | hmb
        · rw [hrel]
          simpa using hxb
        · by_contra hxm
          have := htrans x m b (by simpa using hxm) hmb
          rw [this] at hxb
          exact absurd hxb (by simp)
      · exact hmin y hy

/-- Minimality: the element picked by `selectMin` is not strictly beaten
by any element of the list, provided `lt` is transitive and
irreflexive. -/
theorem selectMin_min (lt : Caller → Caller → Bool)
    (htrans : ∀ a b c, lt a b = true → lt b c = true → lt a c = true)
    (hirr : ∀ a, lt a a = false)
    (cs : List Caller) (m : Caller) (h : selectMin lt cs = some m) :
    ∀ x ∈ cs, lt x m = false := by
  cases cs with
  | nil => simp [selectMin] at h
  | cons c cs =>
    simp only [selectMin, List.foldl_cons] at h
    obtain ⟨hrel, hmin⟩ := selectMin_foldl_min lt htrans hirr cs c m h
    intro x hx
    rcases List.mem_cons.mp hx with heq | hx
    · rw [heq]
      rcases hrel with hrel | hmc
      · rw [hrel]
        exact hirr c
      · by_contra hcm
        have := htrans c m c (by simpa using hcm) hmc
        rw [hirr c] at this
        exact absurd this (by simp)
    · exact hmin x hx

/-- In a list that starts with timestamp-carrying callers and then a
never-assigned one, the round-robin pick is that first never-assigned
caller (NULLS FIRST, leftmost on ties). -/
theorem selectMin_rr_split (A B : List Caller) (b : Caller)
    (hA : ∀ a ∈ A, a.last_assigned_at.isSome)
    (hb : b.last_assigned_at = none) :
    selectMin rrLt (A ++ b :: B) = some b := by
  have hkeep : ∀ (C : List Caller),
      C.foldl
        (fun acc x =>
          match acc with
          | none => some x
          | some m => if rrLt x m then some x else some m)
        (some b) = some b := by
    intro C
    induction C with
    | nil => rfl
    | cons x C ih =>
      simp only [List.foldl_cons]
      have hlt : rrLt x b = false := by
        unfold rrLt
        rw [hb]
        cases x.last_assigned_at <;> rfl
      rw [hlt]
      simpa using ih
  have hsome : ∀ (A' : List Caller) (a : Caller),
      (∀ c ∈ A', c.last_assigned_at.isSome) → a.last_assigned_at.isSome →
      ∃ m, A'.foldl
        (fun acc x =>
          match acc with
          | none => some x
          | some m => if rrLt x m then some x else some m)
        (some a) = some m ∧ m.last_assigned_at.isSome := by
    intro A'
    induction A' with
    | nil => intro a _ ha; exact ⟨a, rfl, ha⟩
    | cons x A' ih =>
      intro a hall ha
      simp only [List.foldl_cons]
      split
      · exact ih x (fun c hc => hall c (by simp [hc])) (hall x (by simp))
      · exact ih a (fun c hc => hall c (by simp [hc])) ha
  unfold selectMin
  rw [List.foldl_append]
  cases A with
  | nil =>
    simp only [List.foldl_nil, List.foldl_cons]
    exact hkeep B
  | cons a A' =>
    simp only [List.foldl_cons]
    obtain ⟨m, hm, hmsome⟩ := hsome A' a
      (fun c hc => hA c (by simp [hc])) (hA a (by simp))
    rw [hm]
    simp only [List.foldl_cons]
    have hlt : rrLt b m = true := by
      unfold rrLt
      rw [hb]
      obtain ⟨t, ht⟩ := Option.isSome_iff_exists.mp hmsome
      rw [ht]
    rw [hlt]
    simp only [if_pos rfl]
    exact hkeep B

/-! ## Order facts about the comparators -/

theorem rrLt_trans (a b c : Caller) (h₁ : rrLt a b = true) (h₂ : rrLt b c = true) :
    rrLt a c = true := by
  unfold rrLt at *
  cases ha : a.last_assigned_at <;> cases hb : b.last_assigned_at <;>
    cases hc : c.last_assigned_at <;> simp_all
  omega

theorem rrLt_irrefl (a : Caller) : rrLt a a = false := by
  unfold rrLt
  cases a.last_assigned_at <;> simp

theorem countLt_trans (a b c : Caller) (h₁ : countLt a b = true)
    (h₂ : countLt b c = true) : countLt a c = true := by
  simp only [countLt, decide_eq_true_eq] at *
  omega

theorem countLt_irrefl (a : Caller) : countLt a a = false := by
  simp only [countLt, decide_eq_false_iff_not]
  omega

theorem lexLt_trans (a b c : Caller) (h₁ : lexLt a b = true)
    (h₂ : lexLt b c = true) : lexLt a c = true := by
  unfold lexLt at *
  simp only [Bool.or_eq_true, Bool.and_eq_true, decide_eq_true_eq,
    Nat.lt_irrefl, beq_iff_eq] at *
  rcases h₁ with h₁ | ⟨h₁e, h₁r⟩ <;> rcases h₂ with h₂ | ⟨h₂e, h₂r⟩
  · exact Or.inl (Nat.lt_trans h₁ h₂)
  · exact Or.inl (h₂e ▸ h₁)
  · exact Or.inl (h₁e ▸ h₂)
  · exact Or.inr ⟨h₁e.trans h₂e, rrLt_trans a b c h₁r h₂r⟩

theorem lexLt_irrefl (a : Caller) : lexLt a a = false := by
  unfold lexLt
  simp [rrLt_irrefl]

/-! ## List helper lemmas -/

theorem map_id_of_no_hit (l : List Caller) (i : Nat)
    (f : Caller → Caller) (h : ∀ c ∈ l, (c.id == i) = false) :
    l.map (fun c => if c.id == i then f c else c) = l := by
  induction l with
  | nil => rfl
  | cons x xs ih =>
    have hx := h x (by simp)
    simp only [List.map_cons, hx, Bool.false_eq_true, if_false]
    rw [ih (fun c hc => h c (by simp [hc]))]

/-- If no caller is stale, the quota reset is the identity. -/
theorem applyReset_id (callers : List Caller) (today : Nat)
    (h : ∀ c ∈ callers, ¬ c.last_reset_date < today) :
    applyReset callers today = callers := by
  unfold applyReset
  have hfilter : callers.filter (fun c => c.last_reset_date < today) = [] := by
    rw [List.filter_eq_nil_iff]
    intro c hc
    simpa using h c hc
  rw [hfilter]
  simp

/-- For a non-empty registry, steps 3–8 always pick somebody. -/
theorem chooseCaller_isSome (state : Option Str) (callers : List Caller)
    (h : callers ≠ []) : (chooseCaller state callers).isSome := by
  have hpool : candidatePool state callers ≠ [] := by
    unfold candidatePool
    simp only
    split
    case isTrue => exact h
    case isFalse hne =>
      intro hnil
      rw [hnil] at hne
      simp at hne
  unfold chooseCaller
  simp only
  split
  case isTrue he =>
    cases hsel : selectMin countLt (candidatePool state callers) with
    | none => exact absurd ((selectMin_eq_none _ _).mp hsel) hpool
    | some c => simp [hsel]
  case isFalse he =>
    cases hsel : selectMin rrLt (eligibleOf (candidatePool state callers)) with
    | none =>
      have := (selectMin_eq_none _ _).mp hsel
      rw [this] at he
      exact absurd rfl he
    | some c => simp [hsel]

/-! ## Fairness run lemmas -/

/-- The chosen caller's row after step 9's update. -/
def bump (b : Caller) (now today : Nat) : Caller :=
  { b with leads_assigned_today := b.leads_assigned_today + 1,
           last_assigned_at := some now, last_reset_date := today }

theorem updateChosen_split (pre rest : List Caller) (b : Caller) (now today : Nat)
    (hnd : ((pre ++ b :: rest).map Caller.id).Nodup) :
    updateChosen (pre ++ b :: rest) b now today =
      pre ++ bump b now today :: rest := by
  rw [List.map_append, List.map_cons, List.nodup_append] at hnd
  obtain ⟨-, hnd₂, hdisj⟩ := hnd
  rw [List.nodup_cons] at hnd₂
  have hpre : ∀ c ∈ pre, (c.id == b.id) = false := by
    intro c hc
    simp only [beq_eq_false_iff_ne, ne_eq]
    intro he
    exact hdisj (List.mem_map_of_mem Caller.id hc) (by simp [he])
  have hrest : ∀ c ∈ rest, (c.id == b.id) = false := by
    intro c hc
    simp only [beq_eq_false_iff_ne, ne_eq]
    intro he
    exact hnd₂.1 (he ▸ List.mem_map_of_mem Caller.id hc)
  unfold updateChosen
  rw [List.map_append, List.map_cons]
  congr 1
  · exact map_id_of_no_hit pre b.id _ hpre
  · rw [if_pos (by simp)]
    congr 1
    exact map_id_of_no_hit rest b.id _ hrest

/-- With no affinity key, a registry that is a block of already-assigned
callers followed by never-assigned under-capacity ones routes the next
assignment to the first never-assigned caller. -/
theorem chooseCaller_none_split (pre rest : List Caller) (b : Caller)
    (hpre : ∀ c ∈ pre, c.last_assigned_at.isSome)
    (hb : b.last_assigned_at = none)
    (hbcap : b.leads_assigned_today < b.daily_lead_limit) :
    chooseCaller none (pre ++ b :: rest) = some (b, Branch.roundRobin) := by
  have hpool : candidatePool none (pre ++ b :: rest) = pre ++ b :: rest := by
    unfold candidatePool
    rfl
  have helig : eligibleOf (pre ++ b :: rest) =
      eligibleOf pre ++ b :: eligibleOf rest := by
    unfold eligibleOf
    rw [List.filter_append, List.filter_cons_of_pos (by simpa using hbcap)]
  have hsel : selectMin rrLt (eligibleOf (pre ++ b :: rest)) = some b := by
    rw [helig]
    exact selectMin_rr_split _ _ b
      (fun a ha => hpre a (List.mem_of_mem_filter ha)) hb
  unfold chooseCaller
  simp only [hpool]
  rw [if_neg ?_, hsel]
  · rfl
  · rw [helig]
    simp [List.isEmpty_iff]

/-- One fairness step: the first never-assigned caller is chosen and
bumped in place. -/
theorem assignStep_split (pre rest : List Caller) (b : Caller) (today t : Nat)
    (hpre : ∀ c ∈ pre, c.last_assigned_at.isSome)
    (hb : b.last_assigned_at = none)
    (hbcap : b.leads_assigned_today < b.daily_lead_limit)
    (hdates : ∀ c ∈ pre ++ b :: rest, today ≤ c.last_reset_date)
    (hnd : ((pre ++ b :: rest).map Caller.id).Nodup) :
    assignStep (pre ++ b :: rest) today t =
      (pre ++ bump b t today :: rest, some b.id) := by
  unfold assignStep
  rw [applyReset_id _ _ (fun c hc => by have := hdates c hc; omega)]
  simp only
  rw [chooseCaller_none_split pre rest b hpre hb hbcap]
  simp only
  rw [updateChosen_split pre rest b t today hnd]

theorem runRR_fair_aux (today : Nat) :
    ∀ (n : Nat) (pre post : List Caller) (t : Nat),
    n ≤ post.length →
    (∀ c ∈ pre, c.last_assigned_at.isSome) →
    (∀ c ∈ post, c.last_assigned_at = none) →
    (∀ c ∈ post, c.leads_assigned_today < c.daily_lead_limit) →
    (∀ c ∈ pre ++ post, today ≤ c.last_reset_date) →
    ((pre ++ post).map Caller.id).Nodup →
    (runRR today (pre ++ post) t n).2 = (post.take n).map Caller.id := by
  intro n
  induction n with
  | zero => intro pre post t _ _ _ _ _ _; simp [runRR]
  | succ n ih =>
    intro pre post t hlen hpre hnone hcap hdates hnd
    cases post with
    | nil => simp at hlen
    | cons b rest =>
      have hstep := assignStep_split pre rest b today t hpre
        (hnone b (by simp)) (hcap b (by simp)) hdates hnd
      have hrec := ih (pre ++ [bump b t today]) rest (t + 1)
        (by simpa using hlen)
        (by
          intro c hc
          rcases List.mem_append.mp hc with hc | hc
          · exact hpre c hc
          · simp only [List.mem_singleton] at hc
            rw [hc]
            rfl)
        (fun c hc => hnone c (by simp [hc]))
        (fun c hc => hcap c (by simp [hc]))
        (by
          intro c hc
          rw [List.append_assoc, List.singleton_append] at hc
          rcases List.mem_append.mp hc with hc | hc
          · exact hdates c (List.mem_append_left _ hc)
          · rcases List.mem_cons.mp hc with heq | hc
            · rw [heq]
              simp [bump]
            · exact hdates c (by simp [hc]))
        (by
          rw [List.append_assoc, List.singleton_append]
          have hids : (pre ++ bump b t today :: rest).map Caller.id =
              (pre ++ b :: rest).map Caller.id := by
            simp [List.map_append, bump]
          rw [hids]
          exact hnd)
      rw [List.append_assoc, List.singleton_append] at hrec
      show (runRR today (pre ++ b :: rest) t (n + 1)).2 = _
      rw [runRR, hstep]
      simp only [List.take_succ_cons, List.map_cons]
      rw [hrec]

/-! ## String normalisation lemmas -/

/-- A list of whitespace code points. -/
abbrev allSpace (ws : Str) : Prop := ∀ n ∈ ws, isSpace n = true

/-- `s'` differs from `s` only in surrounding whitespace and letter
case. -/
def padCaseVariant (s s' : Str) : Prop :=
  ∃ ws₁ core ws₂, allSpace ws₁ ∧ allSpace ws₂ ∧
    s' = ws₁ ++ core ++ ws₂ ∧ lowerStr core = lowerStr s

theorem isSpace_lowerChar (n : Nat) : isSpace (lowerChar n) = isSpace n := by
  unfold lowerChar isSpace
  split
  case isTrue h =>
    have h32 : (n + 32 == 32) = false := by
      simp only [beq_eq_false_iff_ne, ne_eq]; omega
    have h9 : (n + 32 == 9) = false := by
      simp only [beq_eq_false_iff_ne, ne_eq]; omega
    have h10 : (n + 32 == 10) = false := by
      simp only [beq_eq_false_iff_ne, ne_eq]; omega
    have h13 : (n + 32 == 13) = false := by
      simp only [beq_eq_false_iff_ne, ne_eq]; omega
    have g32 : (n == 32) = false := by
      simp only [beq_eq_false_iff_ne, ne_eq]; omega
    have g9 : (n == 9) = false := by
      simp only [beq_eq_false_iff_ne, ne_eq]; omega
    have g10 : (n == 10) = false := by
      simp only [beq_eq_false_iff_ne, ne_eq]; omega
    have g13 : (n == 13) = false := by
      simp only [beq_eq_false_iff_ne, ne_eq]; omega
    rw [h32, h9, h10, h13, g32, g9, g10, g13]
  case isFalse h => rfl

theorem dropWhile_lowerStr (s : Str) :
    (lowerStr s).dropWhile isSpace = lowerStr (s.dropWhile isSpace) := by
  unfold lowerStr
  rw [List.dropWhile_map]
  have hcomp : (isSpace ∘ lowerChar) = isSpace :=
    funext fun x => by simp [Function.comp, isSpace_lowerChar]
  rw [hcomp]

theorem lowerStr_reverse (s : Str) : lowerStr s.reverse = (lowerStr s).reverse := by
  unfold lowerStr
  exact List.map_reverse lowerChar s

/-- Lowercasing commutes with trimming. -/
theorem lowerStr_trim (s : Str) : lowerStr (trim s) = trim (lowerStr s) := by
  unfold trim trimL
  rw [dropWhile_lowerStr, ← lowerStr_reverse, dropWhile_lowerStr, lowerStr_reverse]

theorem dropWhile_append_all {p : Nat → Bool} {a b : Str}
    (h : ∀ x ∈ a, p x = true) : (a ++ b).dropWhile p = b.dropWhile p := by
  rw [List.dropWhile_append, if_pos]
  rw [List.isEmpty_iff, List.dropWhile_eq_nil_iff]
  exact h

/-- Surrounding whitespace is invisible to `trim`. -/
theorem trim_pad (ws₁ core ws₂ : Str) (h₁ : allSpace ws₁) (h₂ : allSpace ws₂) :
    trim (ws₁ ++ core ++ ws₂) = trim core := by
  unfold trim trimL
  rw [List.append_assoc, dropWhile_append_all h₁]
  by_cases hcore : core.dropWhile isSpace = []
  · have hall : ∀ x ∈ core, isSpace x = true := List.dropWhile_eq_nil_iff.mp hcore
    rw [dropWhile_append_all hall, hcore]
    have hws₂ : ws₂.dropWhile isSpace = [] := List.dropWhile_eq_nil_iff.mpr h₂
    rw [hws₂]
  · rw [List.dropWhile_append, if_neg (by simpa [List.isEmpty_iff] using hcore)]
    rw [List.reverse_append, dropWhile_append_all (fun x hx => h₂ x (List.mem_reverse.mp hx))]

/-- The code's normalisation identifies pad/case variants. -/
theorem norm_padCaseVariant (s s' : Str) (h : padCaseVariant s s') :
    norm s' = norm s := by
  obtain ⟨ws₁, core, ws₂, h₁, h₂, rfl, hlow⟩ := h
  unfold norm
  rw [trim_pad ws₁ core ws₂ h₁ h₂, lowerStr_trim, hlow, ← lowerStr_trim]

/-! ## Claim C1 — atomicity under failure -/

/-- A one-caller registry with an unassigned lead, used as the failing
input for claim C1. -/
def c1Start : TsState :=
  { callers := [⟨1, 10, [], 0, 5, none⟩],
    lead_assigned_caller_id := none,
    lead_assigned_at := none }

/-- **C1** (code_bug evidence). The claim asserts that when the work-item
update fails after the worker update succeeded, everything rolls back
and the worker's counter is unchanged. `smartAssignLead` (the
application path) performs the two updates as separate unguarded
Supabase calls: when the lead update fails, the function returns an
error but the chosen caller's already-committed increment stays — a
partial assignment is observable, contradicting both the claim and the
file's own header comment ("atomically updates both the caller record
and the lead record"). At the concrete failing input: one fresh caller,
lead update forced to fail — the final state keeps the caller at
count 1 with `last_assigned_at` stamped while the lead stays
unassigned. (The SQL path `assign_lead_atomic` does roll back, per
`assignLeadAtomic`; the defect is in the TypeScript path.) -/
theorem c1_partial_state_on_lead_update_failure :
    smartAssignLead c1Start none 5 900 TsFailure.leadUpdateFails =
      ({ callers := [⟨1, 10, [], 1, 5, some 900⟩],
         lead_assigned_caller_id := none,
         lead_assigned_at := none }, TsResult.leadUpdateError) ∧
    (smartAssignLead c1Start none 5 900 TsFailure.leadUpdateFails).1 ≠ c1Start := by
  decide

/-! ## Claim C2 — single-shot assignment (refuted: no idempotence check) -/

/-- A state whose only lead (id 7) is already assigned (to worker id 99)
with its audit row present, plus one available caller (id 2). -/
def c2Start : SqlState :=
  { callers := [⟨2, 10, [], 0, 5, none⟩],
    leads := [⟨7, some 99, some 50⟩],
    logs := [⟨7, 99, SqlReason.global_round_robin, 50⟩] }

/-- **C2** counterexample. Calling `assign` again on the already-assigned
work item 7 is *not* a no-op: the engine has no already-assigned check,
so it re-selects caller 2, increments that caller's counter, overwrites
the work item's assignment, and appends a second AssignmentRecord. -/
theorem c2_reassignment_counterexample :
    assignLeadAtomic c2Start 7 none 5 900 SqlFailure.noFailure =
      ({ callers := [⟨2, 10, [], 1, 5, some 900⟩],
         leads := [⟨7, some 2, some 900⟩],
         logs := [⟨7, 99, SqlReason.global_round_robin, 50⟩,
                  ⟨7, 2, SqlReason.global_round_robin, 900⟩] },
        SqlResult.ok 2 SqlReason.global_round_robin) ∧
    (assignLeadAtomic c2Start 7 none 5 900 SqlFailure.noFailure).1.logs.length =
      c2Start.logs.length + 1 := by
  decide

/-- **C2** (amended): `assign_lead_atomic` never inspects the work item's
`assigned_caller_id`; for any state whose addressed lead is already
assigned, a repeated call performs a fresh assignment — it increments
the newly selected worker's counter, overwrites the lead's
`assigned_caller_id`/`assigned_at` with the new choice, and appends
another AssignmentRecord. -/
theorem c2_assign_overwrites_already_assigned (st : SqlState) (leadId : Nat)
    (pst : Option Str) (today now : Nat) (l : LeadRow) (ch : Caller)
    (r : SqlReason)
    (hl : l ∈ st.leads) (hlid : l.id = leadId)
    (_hassigned : l.assigned_caller_id.isSome)
    (hsel : sqlSelect pst (sqlApplyReset st.callers today) = some (ch, r)) :
    (assignLeadAtomic st leadId pst today now SqlFailure.noFailure).2 =
      SqlResult.ok ch.id r ∧
    (assignLeadAtomic st leadId pst today now SqlFailure.noFailure).1.logs =
      st.logs ++ [⟨leadId, ch.id, r, now⟩] ∧
    ({ l with assigned_caller_id := some ch.id, assigned_at := some now } : LeadRow) ∈
      (assignLeadAtomic st leadId pst today now SqlFailure.noFailure).1.leads := by
  unfold assignLeadAtomic
  simp only
  rw [hsel]
  have h₁ : SqlFailure.noFailure ≠ SqlFailure.callerUpdateFails := by decide
  have h₂ : SqlFailure.noFailure ≠ SqlFailure.leadUpdateFails := by decide
  have h₃ : SqlFailure.noFailure ≠ SqlFailure.logInsertFails := by decide
  simp only
  rw [if_neg h₁, if_neg h₂, if_neg h₃]
  refine ⟨rfl, rfl, ?_⟩
  have hmem := List.mem_map_of_mem
    (fun row : LeadRow =>
      if row.id == leadId then
        { row with assigned_caller_id := some ch.id, assigned_at := some now }
      else row) hl
  simp only at hmem
  rw [if_pos (by simp [hlid])] at hmem
  simpa using hmem

/-- Witness for `c2_assign_overwrites_already_assigned` at the concrete
state `c2Start`. -/
theorem c2_assign_overwrites_already_assigned_witness :
    (assignLeadAtomic c2Start 7 none 5 900 SqlFailure.noFailure).2 =
      SqlResult.ok 2 SqlReason.global_round_robin ∧
    (assignLeadAtomic c2Start 7 none 5 900 SqlFailure.noFailure).1.logs =
      c2Start.logs ++ [⟨7, 2, SqlReason.global_round_robin, 900⟩] ∧
    (⟨7, some 2, some 900⟩ : LeadRow) ∈
      (assignLeadAtomic c2Start 7 none 5 900 SqlFailure.noFailure).1.leads :=
  c2_assign_overwrites_already_assigned c2Start 7 none 5 900
    ⟨7, some 99, some 50⟩ ⟨2, 10, [], 0, 5, none⟩
    SqlReason.global_round_robin
    (by decide) (by decide) (by decide) (by decide)

/-! ## Claim C3 — overflow tier pool scope -/

/-- **C3** counterexample. In the transactional engine
`assign_lead_atomic`, the spec's scenario `assign(item3, "Karnataka")`
does *not* choose worker D with the overflow reason: although the
Karnataka affinity pool is non-empty (it is `[D]`) and entirely at
capacity, layer 2 (the global under-capacity tier) intervenes and
chooses worker B — a worker outside the affinity-tagged subset — with
reason `global_round_robin`. The SQL overflow tier, when it is reached
at all, scans the whole registry (`FROM public.callers` with no state
condition), not the affinity pool. -/
theorem c3_sql_overflow_scope_counterexample :
    scenarioRegistry.filter (sqlMatchesState (ofString "Karnataka")) = [workerD] ∧
    (∀ c ∈ scenarioRegistry.filter (sqlMatchesState (ofString "Karnataka")),
      c.daily_lead_limit ≤ c.leads_assigned_today) ∧
    sqlSelect (some (ofString "Karnataka")) scenarioRegistry =
      some (workerB, SqlReason.global_round_robin) ∧
    sqlMatchesState (ofString "Karnataka") workerB = false ∧
    workerB ≠ workerD := by
  decide

/-- **C3** (amended): in the *application-level* selector
`smartAssignLead`, whenever the affinity pool is non-empty but every
worker in it is at or above capacity, the overflow branch selects from
that affinity pool, so the chosen worker carries the matching tag; the
SQL procedure `assign_lead_atomic` instead falls through to its global
under-capacity tier (choosing `global_round_robin` whenever any worker
in the registry is under capacity) and its overflow tier scans the
whole registry. -/
theorem c3_ts_overflow_within_affinity_pool (key : Str) (regs : List Caller)
    (ch : Caller) (br : Branch)
    (hkey : trim key ≠ [])
    (hne : regs.filter (matchesState key) ≠ [])
    (hcap : ∀ c ∈ regs.filter (matchesState key),
      c.daily_lead_limit ≤ c.leads_assigned_today)
    (hch : chooseCaller (some key) regs = some (ch, br)) :
    matchesState key ch = true ∧ br = Branch.overflow := by
  have hpool : candidatePool (some key) regs = regs.filter (matchesState key) := by
    unfold candidatePool
    simp only [if_pos hkey]
    rw [if_neg]
    simp only [List.isEmpty_iff]
    exact hne
  have helig : eligibleOf (regs.filter (matchesState key)) = [] := by
    unfold eligibleOf
    rw [List.filter_eq_nil_iff]
    intro c hc
    have := hcap c hc
    simp only [decide_eq_true_eq]
    omega
  unfold chooseCaller at hch
  simp only [hpool, helig] at hch
  simp only [List.isEmpty_nil] at hch
  rw [if_pos trivial] at hch
  cases hsel : selectMin countLt (regs.filter (matchesState key)) with
  | none => rw [hsel] at hch; simp at hch
  | some c =>
    rw [hsel] at hch
    simp only [Option.map_some', Option.some.injEq, Prod.mk.injEq] at hch
    obtain ⟨rfl, rfl⟩ := hch
    have hmem := selectMin_mem countLt _ _ hsel
    exact ⟨(List.mem_filter.mp hmem).2, rfl⟩

/-- Witness for `c3_ts_overflow_within_affinity_pool`: the spec's
scenario `assign(item3, "Karnataka")`, where `smartAssignLead` chooses
worker D through the overflow branch. -/
theorem c3_ts_overflow_within_affinity_pool_witness :
    chooseCaller (some (ofString "Karnataka")) scenarioRegistry =
      some (workerD, Branch.overflow) ∧
    matchesState (ofString "Karnataka") workerD = true ∧
    Branch.overflow = Branch.overflow :=
  ⟨by decide,
    c3_ts_overflow_within_affinity_pool (ofString "Karnataka") scenarioRegistry
      workerD Branch.overflow (by decide) (by decide) (by decide) (by decide)⟩

/-! ## Claim C4 — capacity enforcement -/

/-- A round-robin (tier 1/2) choice always lands on a caller strictly
under its cap. -/
theorem chooseCaller_rr_under_cap (state : Option Str) (regs : List Caller)
    (ch : Caller)
    (h : chooseCaller state regs = some (ch, Branch.roundRobin)) :
    ch.leads_assigned_today < ch.daily_lead_limit := by
  unfold chooseCaller at h
  simp only at h
  by_cases he : (eligibleOf (candidatePool state regs)).isEmpty = true
  · rw [if_pos he] at h
    cases hsel : selectMin countLt (candidatePool state regs) with
    | none => rw [hsel] at h; simp at h
    | some c => rw [hsel] at h; simp at h
  · rw [if_neg he] at h
    cases hsel : selectMin rrLt (eligibleOf (candidatePool state regs)) with
    | none => rw [hsel] at h; simp at h
    | some c =>
      rw [hsel] at h
      simp only [Option.map_some', Option.some.injEq, Prod.mk.injEq] at h
      obtain ⟨rfl, -⟩ := h
      have hmem := selectMin_mem rrLt _ _ hsel
      have := (List.mem_filter.mp hmem).2
      simpa using this

/-- A non-overflow SQL selection always lands on a caller strictly under
its cap. -/
theorem sqlSelect_under_cap (pst : Option Str) (regs : List Caller)
    (ch : Caller) (r : SqlReason)
    (h : sqlSelect pst regs = some (ch, r))
    (hr : r ≠ SqlReason.cap_overflow_fallback) :
    ch.leads_assigned_today < ch.daily_lead_limit := by
  unfold sqlSelect at h
  cases h1 : selectMin rrLt (sqlLayer1Pool pst regs) with
  | some c =>
    rw [h1] at h
    simp only [Option.some.injEq, Prod.mk.injEq] at h
    obtain ⟨rfl, -⟩ := h
    have hmem := selectMin_mem rrLt _ _ h1
    have := (List.mem_filter.mp hmem).2
    simp only [Bool.and_eq_true, decide_eq_true_eq] at this
    exact this.2
  | none =>
    rw [h1] at h
    cases h2 : selectMin rrLt (sqlLayer2Pool regs) with
    | some c =>
      rw [h2] at h
      simp only [Option.some.injEq, Prod.mk.injEq] at h
      obtain ⟨rfl, -⟩ := h
      have hmem := selectMin_mem rrLt _ _ h2
      have := (List.mem_filter.mp hmem).2
      simpa using this
    | none =>
      rw [h2] at h
      cases h3 : selectMin lexLt regs with
      | none => rw [h3] at h; simp at h
      | some c =>
        rw [h3] at h
        simp only [Option.map_some', Option.some.injEq, Prod.mk.injEq] at h
        exact absurd h.2.symm hr

/-- The whole database state an application-path call can touch:
`smartAssignLead`'s state plus the `assignment_logs` table created by
the migration. The TypeScript function issues exactly three statements —
the batch reset (lines 70–73), the caller update (lines 152–159) and the
lead update (lines 169–175); it contains no insert into
`assignment_logs` (its overflow branch only emits a `console.warn`), so
a call carries the audit table through unchanged. -/
structure DbState where
  ts : TsState
  logs : List LogRow
  deriving Repr, DecidableEq

/-- One `smartAssignLead` call's effect on the whole database, the
untouched `assignment_logs` table included. -/
def smartAssignLeadDb (db : DbState) (leadState : Option Str)
    (today now : Nat) (fail : TsFailure) : DbState × TsResult :=
  let r := smartAssignLead db.ts leadState today now fail
  ({ ts := r.1, logs := db.logs }, r.2)

/-- A database whose one caller (id 1) is exactly at its cap and whose
audit table is empty. -/
def c4Db : DbState :=
  { ts := { callers := [⟨1, 2, [], 2, 5, some 100⟩],
            lead_assigned_caller_id := none,
            lead_assigned_at := none },
    logs := [] }

/-- **C4** counterexample. An over-cap assignment made through
`smartAssignLead`'s overflow branch produces *no* audit record: at
`c4Db` the call assigns the at-capacity caller 1, pushing its count to
3 past its cap of 2, and the `assignment_logs` table is unchanged — so
not every over-cap assignment produces a `capacity_overflow_fallback`
audit record, refuting the claim's audit clause on the very path its
sources cite (`assign-lead.ts` lines 107–159, the path the ingest route
runs). -/
theorem c4_ts_overcap_no_audit_counterexample :
    smartAssignLeadDb c4Db none 5 900 TsFailure.noFailure =
      ({ ts := { callers := [⟨1, 2, [], 3, 5, some 900⟩],
                 lead_assigned_caller_id := some 1,
                 lead_assigned_at := some 900 },
         logs := [] }, TsResult.ok 1) ∧
    (∀ c ∈ (smartAssignLeadDb c4Db none 5 900 TsFailure.noFailure).1.ts.callers,
      c.daily_lead_limit < c.leads_assigned_today) ∧
    (smartAssignLeadDb c4Db none 5 900 TsFailure.noFailure).1.logs = c4Db.logs := by
  decide

/-- **C4** (amended) Capacity enforcement. (i) Every `smartAssignLead`
choice made through the round-robin (eligible) branch satisfies
`count + 1 ≤ cap` after the increment; (ii) a choice whose increment
would exceed the cap can only come from the overflow branch; (iii) every
`assign_lead_atomic` selection with a non-overflow reason satisfies
`count + 1 ≤ cap` after the increment; (iv) in the transactional SQL
engine, every selection of a caller at or above its cap carries the
overflow reason, and the committed transaction appends exactly one audit
record with reason `cap_overflow_fallback` (the code's spelling of the
spec's `capacity_overflow_fallback`); (v) the application path
`smartAssignLead` never writes an audit record — every call, its
over-cap overflow assignments included, leaves `assignment_logs`
unchanged. -/
theorem c4_capacity_enforcement :
    (∀ state regs ch, chooseCaller state regs = some (ch, Branch.roundRobin) →
      ch.leads_assigned_today + 1 ≤ ch.daily_lead_limit) ∧
    (∀ state regs ch br, chooseCaller state regs = some (ch, br) →
      ch.daily_lead_limit < ch.leads_assigned_today + 1 → br = Branch.overflow) ∧
    (∀ pst regs ch r, sqlSelect pst regs = some (ch, r) →
      r ≠ SqlReason.cap_overflow_fallback →
      ch.leads_assigned_today + 1 ≤ ch.daily_lead_limit) ∧
    (∀ st leadId pst today now ch r,
      sqlSelect pst (sqlApplyReset st.callers today) = some (ch, r) →
      ch.daily_lead_limit ≤ ch.leads_assigned_today →
      r = SqlReason.cap_overflow_fallback ∧
      (assignLeadAtomic st leadId pst today now SqlFailure.noFailure).1.logs =
        st.logs ++ [⟨leadId, ch.id, SqlReason.cap_overflow_fallback, now⟩]) ∧
    (∀ db key today now fail,
      (smartAssignLeadDb db key today now fail).1.logs = db.logs) := by
  refine ⟨?_, ?_, ?_, ?_, fun db key today now fail => rfl⟩
  · intro state regs ch h
    have := chooseCaller_rr_under_cap state regs ch h
    omega
  · intro state regs ch br h hover
    cases br with
    | overflow => rfl
    | roundRobin =>
      have := chooseCaller_rr_under_cap state regs ch h
      omega
  · intro pst regs ch r h hr
    have := sqlSelect_under_cap pst regs ch r h hr
    omega
  · intro st leadId pst today now ch r hsel hover
    have hreason : r = SqlReason.cap_overflow_fallback := by
      by_contra hr
      have := sqlSelect_under_cap pst _ ch r hsel hr
      omega
    subst hreason
    refine ⟨rfl, ?_⟩
    unfold assignLeadAtomic
    simp only
    rw [hsel]
    have h₁ : SqlFailure.noFailure ≠ SqlFailure.callerUpdateFails := by decide
    have h₂ : SqlFailure.noFailure ≠ SqlFailure.leadUpdateFails := by decide
    have h₃ : SqlFailure.noFailure ≠ SqlFailure.logInsertFails := by decide
    simp only
    rw [if_neg h₁, if_neg h₂, if_neg h₃]

/-- Witness for `c4_capacity_enforcement`: part (i) at the scenario's
Maharashtra assignment (worker A, 5 + 1 ≤ 10), and part (iv) on a
registry containing only the at-capacity worker D, where the overflow
reason is forced and the audit row is appended. -/
theorem c4_capacity_enforcement_witness :
    (workerA.leads_assigned_today + 1 ≤ workerA.daily_lead_limit) ∧
    (SqlReason.cap_overflow_fallback = SqlReason.cap_overflow_fallback ∧
      (assignLeadAtomic ⟨[workerD], [], []⟩ 9 (some (ofString "Karnataka"))
          scToday 900 SqlFailure.noFailure).1.logs =
        ([] : List LogRow) ++ [⟨9, workerD.id, SqlReason.cap_overflow_fallback, 900⟩]) :=
  ⟨c4_capacity_enforcement.1 (some (ofString "Maharashtra")) scenarioRegistry
      workerA (by decide),
    c4_capacity_enforcement.2.2.2.1 ⟨[workerD], [], []⟩ 9 (some (ofString "Karnataka"))
      scToday 900 workerD SqlReason.cap_overflow_fallback (by decide) (by decide)⟩

/-! ## Claim C5 — round-robin fairness -/

/-- **C5** Round-robin fairness: `n ≤ M` sequential no-affinity
assignment calls against a registry of `M` workers — all under capacity,
all with `last_assigned_at = null`, counters current for `today`,
distinct ids — choose the first `n` workers of the registry in order; in
particular a full pass of `M` calls chooses every worker exactly once
before any worker could be chosen a second time. -/
theorem c5_round_robin_fairness (regs : List Caller) (today t n : Nat)
    (hnone : ∀ c ∈ regs, c.last_assigned_at = none)
    (hcap : ∀ c ∈ regs, c.leads_assigned_today < c.daily_lead_limit)
    (hdates : ∀ c ∈ regs, today ≤ c.last_reset_date)
    (hnd : (regs.map Caller.id).Nodup)
    (hn : n ≤ regs.length) :
    (runRR today regs t n).2 = (regs.take n).map Caller.id := by
  have h := runRR_fair_aux today n [] regs t hn (by simp) hnone hcap
    (by simpa using hdates) (by simpa using hnd)
  simpa using h

/-- A three-worker registry for the fairness witness. -/
def fairRegs : List Caller :=
  [⟨1, 4, [], 0, 5, none⟩, ⟨2, 4, [], 1, 5, none⟩, ⟨3, 4, [], 2, 5, none⟩]

/-- Witness for `c5_round_robin_fairness`: three full-pass calls pick
workers 1, 2, 3 in order. -/
theorem c5_round_robin_fairness_witness :
    (runRR 5 fairRegs 100 3).2 = (fairRegs.take 3).map Caller.id :=
  c5_round_robin_fairness fairRegs 5 100 3
    (by decide) (by decide) (by decide) (by decide) (by decide)

/-! ## Claim C6 — overflow tie-break -/

/-- Two at-capacity callers with equal counts: the first fetched has the
*newer* `last_assigned_at`. -/
def overNewer : Caller := ⟨1, 2, [], 2, 5, some 1000⟩
def overOlder : Caller := ⟨2, 2, [], 2, 5, some 50⟩

/-- **C6** counterexample. `smartAssignLead`'s overflow comparator is
`(a, b) => a.leads_assigned_today - b.leads_assigned_today` — it never
consults `last_assigned_at`. With both callers at cap and tied on
today's count, the overflow branch picks the first one in fetch order
(`overNewer`, last assigned at 1000) even though the claim requires the
older-`last_assigned_at` caller (`overOlder`, last assigned at 50, same
count) to win the tie. -/
theorem c6_ts_overflow_tiebreak_counterexample :
    overNewer.leads_assigned_today = overOlder.leads_assigned_today ∧
    overNewer.daily_lead_limit ≤ overNewer.leads_assigned_today ∧
    overOlder.daily_lead_limit ≤ overOlder.leads_assigned_today ∧
    overNewer.last_assigned_at = some 1000 ∧
    overOlder.last_assigned_at = some 50 ∧
    chooseCaller none [overNewer, overOlder] =
      some (overNewer, Branch.overflow) ∧
    overNewer ≠ overOlder := by
  decide

/-- `none` sorts before any timestamp; otherwise ascending. -/
def nullFirstLe (a b : Option Nat) : Prop :=
  a = none ∨ ∃ x y, a = some x ∧ b = some y ∧ x ≤ y

/-- **C6** (amended): the claimed ordering — `assigned_count_today`
ascending with ties broken by `last_assigned_at` ascending, null
first — is the ordering of the *SQL* overflow tier (layer 3 of
`assign_lead_atomic`): its pick is minimal in that lexicographic order
against every caller in the registry. The application-level overflow of
`smartAssignLead` only guarantees minimality of today's count; its ties
are resolved by fetch position (`created_at` order), not by
`last_assigned_at`. -/
theorem c6_overflow_orderings (regs : List Caller) (ch c : Caller)
    (hc : c ∈ regs) :
    (selectMin lexLt regs = some ch →
      ch.leads_assigned_today ≤ c.leads_assigned_today ∧
      (ch.leads_assigned_today = c.leads_assigned_today →
        nullFirstLe ch.last_assigned_at c.last_assigned_at)) ∧
    (∀ state regs' br, chooseCaller state regs' = some (ch, br) →
      br = Branch.overflow → c ∈ candidatePool state regs' →
      ch.leads_assigned_today ≤ c.leads_assigned_today) := by
  constructor
  · intro h
    have hmin := selectMin_min lexLt lexLt_trans lexLt_irrefl regs ch h c hc
    unfold lexLt at hmin
    simp only [Bool.or_eq_false_iff, Bool.and_eq_false_iff,
      decide_eq_false_iff_not, beq_eq_false_iff_ne, ne_eq] at hmin
    obtain ⟨hcount, htie⟩ := hmin
    refine ⟨by omega, ?_⟩
    intro heq
    rcases htie with htie | htie
    · exact absurd heq.symm htie
    · unfold rrLt at htie
      unfold nullFirstLe
      cases hch : ch.last_assigned_at with
      | none => exact Or.inl rfl
      | some x =>
        cases hcl : c.last_assigned_at with
        | none => rw [hch, hcl] at htie; simp at htie
        | some y =>
          rw [hch, hcl] at htie
          simp only [decide_eq_false_iff_not, Nat.not_lt] at htie
          exact Or.inr ⟨x, y, rfl, rfl, htie⟩
  · intro state regs' br h hbr hcpool
    subst hbr
    unfold chooseCaller at h
    simp only at h
    by_cases he : (eligibleOf (candidatePool state regs')).isEmpty = true
    · rw [if_pos he] at h
      cases hsel : selectMin countLt (candidatePool state regs') with
      | none => rw [hsel] at h; simp at h
      | some m =>
        rw [hsel] at h
        simp only [Option.map_some', Option.some.injEq, Prod.mk.injEq] at h
        obtain ⟨rfl, -⟩ := h
        have hmin := selectMin_min countLt countLt_trans countLt_irrefl _ _ hsel c hcpool
        simp only [countLt, decide_eq_false_iff_not, Nat.not_lt] at hmin
        exact hmin
    · rw [if_neg he] at h
      cases hsel : selectMin rrLt (eligibleOf (candidatePool state regs')) with
      | none => rw [hsel] at h; simp at h
      | some m => rw [hsel] at h; simp at h

/-- Witness for `c6_overflow_orderings`: on a registry tied at count 3,
the SQL overflow pick is the never-assigned caller. -/
theorem c6_overflow_orderings_witness :
    (selectMin lexLt [⟨1, 2, [], 3, 5, some 10⟩, ⟨2, 2, [], 3, 5, none⟩] =
        some ⟨2, 2, [], 3, 5, none⟩ →
      (3 : Nat) ≤ 3 ∧ ((3 : Nat) = 3 → nullFirstLe none (some 10))) ∧
    (∀ state regs' br,
      chooseCaller state regs' = some (⟨2, 2, [], 3, 5, none⟩, br) →
      br = Branch.overflow →
      (⟨1, 2, [], 3, 5, some 10⟩ : Caller) ∈ candidatePool state regs' →
      (3 : Nat) ≤ 3) :=
  c6_overflow_orderings [⟨1, 2, [], 3, 5, some 10⟩, ⟨2, 2, [], 3, 5, none⟩]
    ⟨2, 2, [], 3, 5, none⟩ ⟨1, 2, [], 3, 5, some 10⟩ (by decide)

/-! ## Claim C7 — affinity precedence -/

/-- **C7** Affinity precedence: a work item with a usable affinity key
matched by at least one under-capacity worker is always routed inside
the affinity-tagged subset — in both the application-level selector
(`matchesState`, trim+lowercase) and the SQL procedure
(`sqlMatchesState`, lowercase). -/
theorem c7_affinity_precedence (key : Str) (regs : List Caller) (c : Caller)
    (hkey : trim key ≠ [])
    (hc : c ∈ regs) (hmatch : matchesState key c = true)
    (hcap : c.leads_assigned_today < c.daily_lead_limit) :
    (∃ ch, chooseCaller (some key) regs = some (ch, Branch.roundRobin) ∧
      matchesState key ch = true) ∧
    (key ≠ [] → sqlMatchesState key c = true →
      ∃ ch, sqlSelect (some key) regs =
        some (ch, SqlReason.state_match_round_robin) ∧
        sqlMatchesState key ch = true) := by
  constructor
  · have hcpool : c ∈ regs.filter (matchesState key) :=
      List.mem_filter.mpr ⟨hc, hmatch⟩
    have hpool : candidatePool (some key) regs = regs.filter (matchesState key) := by
      unfold candidatePool
      simp only [if_pos hkey]
      rw [if_neg]
      simp only [List.isEmpty_iff]
      exact List.ne_nil_of_mem hcpool
    have hce : c ∈ eligibleOf (regs.filter (matchesState key)) :=
      List.mem_filter.mpr ⟨hcpool, by simpa using hcap⟩
    have hne : eligibleOf (regs.filter (matchesState key)) ≠ [] :=
      List.ne_nil_of_mem hce
    unfold chooseCaller
    simp only [hpool]
    rw [if_neg (by simpa [List.isEmpty_iff] using hne)]
    cases hsel : selectMin rrLt (eligibleOf (regs.filter (matchesState key))) with
    | none => exact absurd ((selectMin_eq_none _ _).mp hsel) hne
    | some m =>
      refine ⟨m, by simp, ?_⟩
      have hmem := selectMin_mem rrLt _ _ hsel
      exact (List.mem_filter.mp (List.mem_of_mem_filter hmem)).2
  · intro hkey' hsql
    have hcpool : c ∈ sqlLayer1Pool (some key) regs := by
      unfold sqlLayer1Pool
      refine List.mem_filter.mpr ⟨hc, ?_⟩
      simp only [Bool.and_eq_true, decide_eq_true_eq]
      exact ⟨⟨by simpa using hkey', hsql⟩, hcap⟩
    have hne : sqlLayer1Pool (some key) regs ≠ [] := List.ne_nil_of_mem hcpool
    unfold sqlSelect
    cases hsel : selectMin rrLt (sqlLayer1Pool (some key) regs) with
    | none => exact absurd ((selectMin_eq_none _ _).mp hsel) hne
    | some m =>
      refine ⟨m, rfl, ?_⟩
      have hmem := selectMin_mem rrLt _ _ hsel
      have := (List.mem_filter.mp hmem).2
      simp only [Bool.and_eq_true, decide_eq_true_eq] at this
      exact this.1.2

/-- Witness for `c7_affinity_precedence`: the scenario's
`assign(item1, "Maharashtra")`, matched by under-capacity worker A. -/
theorem c7_affinity_precedence_witness :
    (∃ ch, chooseCaller (some (ofString "Maharashtra")) scenarioRegistry =
        some (ch, Branch.roundRobin) ∧
      matchesState (ofString "Maharashtra") ch = true) ∧
    (ofString "Maharashtra" ≠ [] →
      sqlMatchesState (ofString "Maharashtra") workerA = true →
      ∃ ch, sqlSelect (some (ofString "Maharashtra")) scenarioRegistry =
        some (ch, SqlReason.state_match_round_robin) ∧
        sqlMatchesState (ofString "Maharashtra") ch = true) :=
  c7_affinity_precedence (ofString "Maharashtra") scenarioRegistry workerA
    (by decide) (by decide) (by decide) (by decide)

/-! ## Claim C8 — empty-registry failure -/

theorem sqlSelect_eq_none (pst : Option Str) (regs : List Caller) :
    sqlSelect pst regs = none ↔ regs = [] := by
  constructor
  · intro h
    unfold sqlSelect at h
    cases h1 : selectMin rrLt (sqlLayer1Pool pst regs) with
    | some c => rw [h1] at h; simp at h
    | none =>
      rw [h1] at h
      cases h2 : selectMin rrLt (sqlLayer2Pool regs) with
      | some c => rw [h2] at h; simp at h
      | none =>
        rw [h2] at h
        cases h3 : selectMin lexLt regs with
        | some c => rw [h3] at h; simp at h
        | none => exact (selectMin_eq_none _ _).mp h3
  · intro h
    subst h
    rfl

/-- With any caller chosen, `assign_lead_atomic` never reports the
no-caller failure. -/
theorem assignLeadAtomic_ne_noCallers (st : SqlState) (leadId : Nat)
    (pst : Option Str) (today now : Nat) (fail : SqlFailure)
    (ch : Caller) (r : SqlReason)
    (hsel : sqlSelect pst (sqlApplyReset st.callers today) = some (ch, r)) :
    (assignLeadAtomic st leadId pst today now fail).2 ≠ SqlResult.noCallers := by
  unfold assignLeadAtomic
  simp only
  rw [hsel]
  simp only
  cases fail <;> simp

/-- With a non-empty registry, `smartAssignLead` reports neither the
no-caller failure nor the defensive no-choice failure. -/
theorem smartAssignLead_nonempty_results (st : TsState) (key : Option Str)
    (today now : Nat) (fail : TsFailure) (hne : st.callers ≠ []) :
    (smartAssignLead st key today now fail).2 ≠ TsResult.noCallers ∧
    (smartAssignLead st key today now fail).2 ≠ TsResult.noChoice := by
  have hne' : applyReset st.callers today ≠ [] := by
    unfold applyReset
    simp only
    rw [ne_eq, List.map_eq_nil_iff]
    exact hne
  have hsome := chooseCaller_isSome key (applyReset st.callers today) hne'
  rw [Option.isSome_iff_exists] at hsome
  obtain ⟨⟨ch, br⟩, hch⟩ := hsome
  unfold smartAssignLead
  rw [if_neg (by simpa [List.isEmpty_iff] using hne)]
  simp only
  rw [hch]
  cases fail <;> simp

/-- **C8** Empty-registry failure: the application path fails with
`'No callers found in the system.'` exactly when the registry is empty,
and then returns with the state untouched and the lead unassigned; with
a non-empty registry the defensive `'Could not determine a caller'`
branch is unreachable. Likewise the SQL procedure returns its
no-caller failure exactly when the registry is empty, and then leaves
every row unchanged. -/
theorem c8_empty_registry_failure (st : TsState) (key : Option Str)
    (today now : Nat) (fail : TsFailure) :
    ((smartAssignLead st key today now fail).2 = TsResult.noCallers ↔
      st.callers = []) ∧
    (st.callers = [] →
      smartAssignLead st key today now fail = (st, TsResult.noCallers)) ∧
    (st.callers ≠ [] →
      (smartAssignLead st key today now fail).2 ≠ TsResult.noChoice) ∧
    (∀ (sq : SqlState) (leadId : Nat) (pst : Option Str) (sfail : SqlFailure),
      ((assignLeadAtomic sq leadId pst today now sfail).2 = SqlResult.noCallers ↔
        sq.callers = []) ∧
      (sq.callers = [] →
        assignLeadAtomic sq leadId pst today now sfail =
          (sq, SqlResult.noCallers))) := by
  have hsql : ∀ (sq : SqlState) (leadId : Nat) (pst : Option Str)
      (sfail : SqlFailure),
      ((assignLeadAtomic sq leadId pst today now sfail).2 = SqlResult.noCallers ↔
        sq.callers = []) ∧
      (sq.callers = [] →
        assignLeadAtomic sq leadId pst today now sfail =
          (sq, SqlResult.noCallers)) := by
    intro sq leadId pst sfail
    by_cases hq : sq.callers = []
    · have hempty : assignLeadAtomic sq leadId pst today now sfail =
          (sq, SqlResult.noCallers) := by
        obtain ⟨cs, ls, lg⟩ := sq
        simp only at hq
        subst hq
        rfl
      rw [hempty]
      exact ⟨by simp [hq], fun _ => rfl⟩
    · have hne' : sqlApplyReset sq.callers today ≠ [] := by
        unfold sqlApplyReset
        rw [ne_eq, List.map_eq_nil_iff]
        exact hq
      cases hsel : sqlSelect pst (sqlApplyReset sq.callers today) with
      | none => exact absurd ((sqlSelect_eq_none _ _).mp hsel) hne'
      | some pr =>
        obtain ⟨ch, r⟩ := pr
        have hner := assignLeadAtomic_ne_noCallers sq leadId pst today now
          sfail ch r hsel
        exact ⟨⟨fun habs => absurd habs hner, fun h => absurd h hq⟩,
          fun h => absurd h hq⟩
  by_cases hemp : st.callers = []
  · have hts : smartAssignLead st key today now fail = (st, TsResult.noCallers) := by
      unfold smartAssignLead
      rw [if_pos (by simpa [List.isEmpty_iff] using hemp)]
    rw [hts]
    exact ⟨by simp [hemp], fun _ => rfl, fun h => absurd hemp h, hsql⟩
  · obtain ⟨h1, h2⟩ := smartAssignLead_nonempty_results st key today now fail hemp
    exact ⟨⟨fun habs => absurd habs h1, fun h => absurd h hemp⟩,
      fun h => absurd h hemp, fun _ => h2, hsql⟩

/-- Witness for `c8_empty_registry_failure` at an empty registry and an
empty SQL state. -/
theorem c8_empty_registry_failure_witness :
    smartAssignLead ⟨[], none, none⟩ none 5 900 TsFailure.noFailure =
      (⟨[], none, none⟩, TsResult.noCallers) ∧
    assignLeadAtomic ⟨[], [], []⟩ 1 none 5 900 SqlFailure.noFailure =
      (⟨[], [], []⟩, SqlResult.noCallers) :=
  ⟨(c8_empty_registry_failure ⟨[], none, none⟩ none 5 900
      TsFailure.noFailure).2.1 rfl,
    ((c8_empty_registry_failure ⟨[], none, none⟩ none 5 900
      TsFailure.noFailure).2.2.2 ⟨[], [], []⟩ 1 none SqlFailure.noFailure).2 rfl⟩

/-! ## Claim C9 — quota reset correctness and idempotence -/

/-- **C9** Quota reset: with distinct caller ids (the primary-key
invariant), the id-roundtrip reset of `smartAssignLead` step 2 resets
`leads_assigned_today` to 0 and `last_reset_date` to `today` for exactly
the callers whose `last_reset_date` is strictly earlier than `today`,
leaves every other caller untouched, and is idempotent for a fixed
`today`. -/
theorem c9_quota_reset (regs : List Caller) (today : Nat)
    (hnd : (regs.map Caller.id).Nodup) :
    applyReset regs today = regs.map (fun c =>
      if c.last_reset_date < today then
        { c with leads_assigned_today := 0, last_reset_date := today }
      else c) ∧
    applyReset (applyReset regs today) today = applyReset regs today := by
  constructor
  · unfold applyReset
    simp only
    apply List.map_congr_left
    intro c hc
    by_cases hdt : c.last_reset_date < today
    · rw [if_pos, if_pos hdt]
      exact List.elem_iff.mpr
        (List.mem_map_of_mem Caller.id
          (List.mem_filter.mpr ⟨hc, by simpa using hdt⟩))
    · rw [if_neg, if_neg hdt]
      intro habs
      have hmem := List.elem_iff.mp habs
      rw [List.mem_map] at hmem
      obtain ⟨d, hd, hid⟩ := hmem
      have hdreg := List.mem_of_mem_filter hd
      have : d = c := List.inj_on_of_nodup_map hnd hdreg hc hid
      subst this
      have := (List.mem_filter.mp hd).2
      simp only [decide_eq_true_eq] at this
      exact hdt this
  · apply applyReset_id
    intro c hc
    unfold applyReset at hc
    simp only at hc
    rw [List.mem_map] at hc
    obtain ⟨a, ha, rfl⟩ := hc
    by_cases hcon :
        ((regs.filter (fun c => c.last_reset_date < today)).map
          Caller.id).contains a.id = true
    · rw [if_pos hcon]
      simp only
      omega
    · rw [if_neg hcon]
      intro hlt
      exact hcon (List.elem_iff.mpr
        (List.mem_map_of_mem Caller.id
          (List.mem_filter.mpr ⟨ha, by simpa using hlt⟩)))

/-- A two-caller registry, one stale and one current, for the reset
witness. -/
def resetRegs : List Caller :=
  [⟨1, 10, [], 7, 3, some 100⟩, ⟨2, 10, [], 4, 5, none⟩]

/-- Witness for `c9_quota_reset` at `resetRegs` with `today = 5`: the
stale caller 1 is zeroed, caller 2 is untouched, and a second reset
changes nothing. -/
theorem c9_quota_reset_witness :
    applyReset resetRegs 5 = resetRegs.map (fun c =>
      if c.last_reset_date < 5 then
        { c with leads_assigned_today := 0, last_reset_date := 5 }
      else c) ∧
    applyReset (applyReset resetRegs 5) 5 = applyReset resetRegs 5 :=
  c9_quota_reset resetRegs 5 (by decide)

/-! ## Claim C10 — whitespace-insensitive affinity matching -/

theorem any_norm_padCase (key key' : Str) (hk : padCaseVariant key key')
    (l l' : List Str) (hf : List.Forall₂ padCaseVariant l l') :
    l'.any (fun s => norm s == norm key') = l.any (fun s => norm s == norm key) := by
  induction hf with
  | nil => rfl
  | cons h1 _ ih =>
    simp only [List.any_cons]
    rw [norm_padCaseVariant _ _ h1, ih, norm_padCaseVariant _ _ hk]

/-- **C10** Whitespace-insensitive matching in `smartAssignLead`:
(i) the normalisation `s.trim().toLowerCase()` is invariant under
surrounding whitespace and letter case, so (ii) pool membership is
identical for any key/tag pair differing only in those; and (iii) an
affinity key whose trim is empty is treated as absent: the candidate
pool falls through to the whole registry. -/
theorem c10_whitespace_insensitive_matching :
    (∀ s s', padCaseVariant s s' → norm s' = norm s) ∧
    (∀ key key' (c c' : Caller), padCaseVariant key key' →
      List.Forall₂ padCaseVariant c.assigned_states c'.assigned_states →
      matchesState key' c' = matchesState key c) ∧
    (∀ key regs, trim key = [] → candidatePool (some key) regs = regs) := by
  refine ⟨norm_padCaseVariant, ?_, ?_⟩
  · intro key key' c c' hk hf
    unfold matchesState
    exact any_norm_padCase key key' hk _ _ hf
  · intro key regs h
    unfold candidatePool
    simp only
    have hpool : (if trim key ≠ [] then regs.filter (matchesState key) else []) = [] :=
      if_neg (fun hne => hne h)
    rw [hpool]
    rfl

/-- Witness for `c10_whitespace_insensitive_matching`: `"  GOA "`
normalises like `"goa"`, and a whitespace-only key routes to the global
pool. -/
theorem c10_whitespace_insensitive_matching_witness :
    norm (ofString "  GOA ") = norm (ofString "goa") ∧
    candidatePool (some [32]) scenarioRegistry = scenarioRegistry :=
  ⟨c10_whitespace_insensitive_matching.1 (ofString "goa") (ofString "  GOA ")
      ⟨[32, 32], ofString "GOA", [32], by decide, by decide, by decide, by decide⟩,
    c10_whitespace_insensitive_matching.2.2 [32] scenarioRegistry (by decide)⟩

end BlocCRM
